import Mathlib

/-!
Verification development for the EntityDB temporal tag versioning engine and
its Python client code.

The repository's visible sources are client-side: HTTP client wrappers, demo
applications and load-test harnesses that exercise a remote temporal entity
store.  The engine itself (TagTimeline, RetentionPolicyEvaluator,
SnapshotReconstructor, ChangeFeedEmitter) is specified but not present in the
sources, so it is modelled here directly from the design specification; the
client-side functions (`EntityDBClient._request`, `add_metric_value`, the wire
tag encoding used by the test harnesses) are embedded from the Python sources.
-/

namespace EntityDB

/-- Modelled from the spec: the operation of a TagVersion, `op ∈ {Set, Delete}`
(spec §3, data model). -/
inductive Op where
  | set
  | del
deriving DecidableEq, Repr

/-- Modelled from the spec: a TagVersion
`{timestampNanos, key, value, op, sequence}` (spec §3).  `sequence` is a
per-entity monotonic counter breaking ties between versions sharing a
timestamp. -/
structure TagVersion where
  timestampNanos : Nat
  key : String
  value : String
  op : Op
  sequence : Nat
deriving DecidableEq, Repr

/-- The `(timestampNanos, sequence)` pair of a version, the order key of an
entity-key stream (spec §3 invariant 1). -/
def TagVersion.pair (v : TagVersion) : Nat × Nat :=
  (v.timestampNanos, v.sequence)

/-- Strict lexicographic order on `(timestampNanos, sequence)` pairs,
as a boolean. -/
def pairLtb (a b : Nat × Nat) : Bool :=
  a.1 < b.1 || (a.1 == b.1 && a.2 < b.2)

/-- All versions of one key, in timeline (append) order: the entity-key
sub-stream (spec §3). -/
def keyVersions (tl : List TagVersion) (k : String) : List TagVersion :=
  tl.filter (fun v => v.key == k)

/-- Number of retained versions of a key. -/
def countKey (tl : List TagVersion) (k : String) : Nat :=
  (keyVersions tl k).length

/-- The most recent version of a key: the last element of its sub-stream. -/
def lastVersion (tl : List TagVersion) (k : String) : Option TagVersion :=
  (keyVersions tl k).getLast?

/-- The `(timestampNanos, sequence)` pair of the key's last recorded version
(spec §4.1). -/
def lastPair (tl : List TagVersion) (k : String) : Option (Nat × Nat) :=
  (lastVersion tl k).map TagVersion.pair

/-- Modelled from the spec: a RetentionPolicy
`{selector, maxVersionsPerKey, maxAgeNanos}` (spec §3).  `none` means
unlimited (the default for unmatched entities). -/
structure RetentionPolicy where
  maxVersionsPerKey : Option Nat
  maxAgeNanos : Option Nat
deriving DecidableEq, Repr

/-- How many versions of a touched key a count-based prune retains.  Invariant
2 of the spec (the most recent version is never pruned) forces at least one
version to be kept even under a degenerate `maxVersionsPerKey = 0`. -/
def RetentionPolicy.keepCount (p : RetentionPolicy) : Option Nat :=
  p.maxVersionsPerKey.map (fun n => max n 1)

/-- Modelled from the spec: drop the `excess` oldest versions of key `k` from
the timeline (oldest-first, spec §4.2 and §3 invariant 3).  Versions of other
keys are untouched. -/
def dropOldestK : Nat → String → List TagVersion → List TagVersion
  | 0, _, tl => tl
  | _ + 1, _, [] => []
  | e + 1, k, v :: rest =>
      if v.key == k then dropOldestK e k rest
      else v :: dropOldestK (e + 1) k rest

/-- Modelled from the spec: count-based pruning of one touched key — if the
count of retained versions exceeds `maxVersionsPerKey`, drop the oldest excess
versions, keeping the newest N (spec §4.2). -/
def pruneCount (p : RetentionPolicy) (k : String) (tl : List TagVersion) :
    List TagVersion :=
  match p.keepCount with
  | none => tl
  | some keep => dropOldestK (countKey tl k - keep) k tl

/-- Modelled from the spec: age-based pruning of one touched key — drop
versions of `k` older than the cutoff, except the single most recent version
of the key (spec §4.2, invariant 2).  A version of `k` is removed only when a
later version of `k` exists in the timeline. -/
def agePruneK (cutoff : Nat) (k : String) : List TagVersion → List TagVersion
  | [] => []
  | v :: rest =>
      if v.key == k && decide (v.timestampNanos < cutoff)
          && rest.any (fun w => w.key == k)
      then agePruneK cutoff k rest
      else v :: agePruneK cutoff k rest

/-- Modelled from the spec: age-based pruning step, active only when
`maxAgeNanos` is set (spec §4.2). -/
def pruneAge (p : RetentionPolicy) (now : Nat) (k : String)
    (tl : List TagVersion) : List TagVersion :=
  match p.maxAgeNanos with
  | none => tl
  | some a => agePruneK (now - a) k tl

/-- Modelled from the spec: full retention step for one touched key —
count-based pruning followed by age-based pruning (spec §4.2). -/
def pruneKey (p : RetentionPolicy) (now : Nat) (k : String)
    (tl : List TagVersion) : List TagVersion :=
  pruneAge p now k (pruneCount p k tl)

/-- Modelled from the spec: retention runs at the end of every append batch,
scoped to exactly the keys touched by that batch (spec §4.2). -/
def pruneKeys (p : RetentionPolicy) (now : Nat) (ks : List String)
    (tl : List TagVersion) : List TagVersion :=
  ks.foldl (fun t k => pruneKey p now k t) tl

/-- Modelled from the spec: an Entity `{id, dataset, type, timeline}`
(spec §3), extended with the per-entity monotonic sequence counter and the
creation timestamp that `asOf`'s NotFound rule refers to. -/
structure Entity where
  id : String
  dataset : String
  type : String
  createdNanos : Nat
  timeline : List TagVersion
  nextSeq : Nat
deriving DecidableEq, Repr

/-- Modelled from the spec: the error taxonomy surfaced to callers
(spec §7) — `NotFound` for unknown entity or pre-creation as-of,
`InvalidTimestamp` for a non-monotonic supplied timestamp. -/
inductive ApiError where
  | notFound
  | invalidTimestamp
deriving DecidableEq, Repr

/-- Modelled from the spec: the monotonicity check of `append` — the supplied
`(timestampNanos, sequence)` must be strictly greater than the key's last
recorded pair (spec §4.1). -/
def okForKey (tl : List TagVersion) (k : String) (ts seq : Nat) : Bool :=
  match lastPair tl k with
  | none => true
  | some p => pairLtb p (ts, seq)

/-- Modelled from the spec: turn an append batch `[(key, value, op)]` into
TagVersions, all carrying the batch timestamp and consecutive server-assigned
sequence numbers (spec §3, §4.1). -/
def mkVersions (ts : Nat) : Nat → List (String × String × Op) → List TagVersion
  | _, [] => []
  | seq, (k, v, o) :: rest => ⟨ts, k, v, o, seq⟩ :: mkVersions ts (seq + 1) rest

/-- Modelled from the spec: the all-or-nothing validation of an append batch —
every version of the batch must pass the monotonicity check against the
current timeline (spec §4.1: atomic across all tags in one call). -/
def batchOk (tl : List TagVersion) (ts seq0 : Nat)
    (tags : List (String × String × Op)) : Bool :=
  (mkVersions ts seq0 tags).all
    (fun v => okForKey tl v.key v.timestampNanos v.sequence)

/-- Modelled from the spec: `append(entityId, [key,value,op]+, timestampNanos)`
(spec §4.1) — validate the batch, append all its versions atomically, then run
the retention evaluator on exactly the touched keys (spec §4.2, §5: one atomic
unit per entity).  Fails with `InvalidTimestamp` when validation fails. -/
def appendTags (p : RetentionPolicy) (e : Entity)
    (tags : List (String × String × Op)) (ts : Nat) : Except ApiError Entity :=
  if batchOk e.timeline ts e.nextSeq tags then
    Except.ok
      { e with
        timeline :=
          pruneKeys p ts (tags.map (fun t => t.1))
            (e.timeline ++ mkVersions ts e.nextSeq tags)
        nextSeq := e.nextSeq + tags.length }
  else
    Except.error ApiError.invalidTimestamp

/-- One logical `AppendTags` request: a batch of tags and a timestamp. -/
structure AppendOp where
  tags : List (String × String × Op)
  ts : Nat
deriving DecidableEq, Repr

/-- Apply one append request, leaving the entity unchanged when the request is
rejected (a surfaced error mutates nothing, spec §7). -/
def applyOp (p : RetentionPolicy) (e : Entity) (op : AppendOp) : Entity :=
  match appendTags p e op.tags op.ts with
  | Except.ok e' => e'
  | Except.error _ => e

/-- Apply a sequence of append requests in order.  Per-entity serialization
(spec §5) means every concurrent execution is equivalent to some such
sequential order. -/
def applyOps (p : RetentionPolicy) (e : Entity) (ops : List AppendOp) : Entity :=
  ops.foldl (applyOp p) e

/-- A freshly created entity: empty timeline, sequence counter at zero
(spec §3, lifecycle). -/
def entity0 (id dataset ty : String) (created : Nat) : Entity :=
  ⟨id, dataset, ty, created, [], 0⟩

/-- Modelled from the spec: CurrentView at one key — the value of the key's
most recent non-pruned `Set` version, absent if the most recent op is `Delete`
(spec §3). -/
def latestVal (e : Entity) (k : String) : Option String :=
  match lastVersion e.timeline k with
  | some v => match v.op with
    | Op.set => some v.value
    | Op.del => none
  | none => none

/-- Modelled from the spec: the version `asOf` selects for one key — the last
version of the key's sub-stream with `timestampNanos ≤ ts` (spec §4.5). -/
def asOfVersion (tl : List TagVersion) (ts : Nat) (k : String) :
    Option TagVersion :=
  ((keyVersions tl k).filter (fun v => decide (v.timestampNanos ≤ ts))).getLast?

/-- Modelled from the spec: the as-of view at one key — the selected version's
value, with keys whose selected version has `op = Delete` excluded
(spec §4.5). -/
def asOfVal (tl : List TagVersion) (ts : Nat) (k : String) : Option String :=
  match asOfVersion tl ts k with
  | some v => match v.op with
    | Op.set => some v.value
    | Op.del => none
  | none => none

/-- The distinct keys appearing in a timeline. -/
def entityKeys (tl : List TagVersion) : List String :=
  (tl.map (fun v => v.key)).dedup

/-- Modelled from the spec: `asOf(entityId, ts)` — a full CurrentView-shaped
snapshot as of `ts`; returns `NotFound` when `ts` precedes the entity's
creation (spec §4.5). -/
def asOf (e : Entity) (ts : Nat) : Except ApiError (List (String × String)) :=
  if ts < e.createdNanos then Except.error ApiError.notFound
  else
    Except.ok
      ((entityKeys e.timeline).filterMap
        (fun k => (asOfVal e.timeline ts k).map (fun v => (k, v))))

/-- Modelled from the spec: `lastWriteTime(E)` — the timestamp of the entity's
most recent write, its creation time when no write happened yet (spec §8,
property 2). -/
def lastWriteTime (e : Entity) : Nat :=
  e.timeline.foldl (fun m v => max m v.timestampNanos) e.createdNanos

/-- Modelled from the spec: `diff(entityId, t1, t2)` — the set of keys whose
`asOf(t1)` value differs from their `asOf(t2)` value, appearance and
disappearance via Set/Delete included (spec §4.5). -/
def diffKeys (e : Entity) (t1 t2 : Nat) : List String :=
  (entityKeys e.timeline).filter
    (fun k => decide (asOfVal e.timeline t1 k ≠ asOfVal e.timeline t2 k))

/-- Modelled from the spec: the full CurrentView, `GetLatest(E)` — the mapping
from each key to its most recent non-pruned `Set` version (spec §3, §6). -/
def getLatest (e : Entity) : List (String × String) :=
  (entityKeys e.timeline).filterMap
    (fun k => (latestVal e k).map (fun v => (k, v)))

/-- Modelled from the spec: `history(entityId, key)` — the raw version
sub-stream of one key, in increasing `(timestampNanos, sequence)` order
(spec §4.5). -/
def history (e : Entity) (k : String) : List TagVersion :=
  keyVersions e.timeline k

/-- Reference variant of `appendTags` with the retention evaluator switched
off; used to express that pruning never touches the most recent version of a
key (spec §3 invariant 2). -/
def appendTagsNP (e : Entity) (tags : List (String × String × Op)) (ts : Nat) :
    Except ApiError Entity :=
  if batchOk e.timeline ts e.nextSeq tags then
    Except.ok
      { e with
        timeline := e.timeline ++ mkVersions ts e.nextSeq tags
        nextSeq := e.nextSeq + tags.length }
  else
    Except.error ApiError.invalidTimestamp

/-- Apply one append request without retention. -/
def applyOpNP (e : Entity) (op : AppendOp) : Entity :=
  match appendTagsNP e op.tags op.ts with
  | Except.ok e' => e'
  | Except.error _ => e

/-- Apply a sequence of append requests without retention. -/
def applyOpsNP (e : Entity) (ops : List AppendOp) : Entity :=
  ops.foldl applyOpNP e

/-- Modelled from the spec: one record of the global change feed —
`(entityId, key, newValue, timestampNanos)` plus the tie-breaking sequence
(spec §4.6). -/
structure Change where
  entityId : String
  key : String
  newValue : String
  timestampNanos : Nat
  sequence : Nat
deriving DecidableEq, Repr

/-- The `(timestampNanos, sequence)` order key of a change record. -/
def Change.pair (c : Change) : Nat × Nat :=
  (c.timestampNanos, c.sequence)

/-- Modelled from the spec: the part of the global time-bucketed index at or
after `ts` — pruned versions older than `ts` are never visible (spec §4.6). -/
def eligibleSince (idx : List Change) (ts : Nat) : List Change :=
  idx.filter (fun c => decide (ts ≤ c.timestampNanos))

/-- Modelled from the spec: restart after a continuation token — the token is
the last returned `(timestampNanos, sequence)`, and the feed resumes at the
first record strictly after it (spec §4.6). -/
def afterToken (token : Option (Nat × Nat)) (l : List Change) : List Change :=
  match token with
  | none => l
  | some t => l.dropWhile (fun c => ! pairLtb t c.pair)

/-- Modelled from the spec: `changesSince(ts, limit)` with an optional
continuation token, paginated via `limit` (spec §4.6). -/
def changesSince (idx : List Change) (ts : Nat) (limit : Nat)
    (token : Option (Nat × Nat)) : List Change :=
  (afterToken token (eligibleSince idx ts)).take limit

/-- The continuation token returned with a page: the last returned
`(timestampNanos, sequence)` pair (spec §4.6). -/
def nextToken (res : List Change) : Option (Nat × Nat) :=
  res.getLast?.map Change.pair

/-! ### Wire tag encoding

Embedded from the client sources: the tests build temporal tags as
`f"{timestamp_ns}|key:value"` and plain tags as `f"key:value"`
(src/share/tests/temporal_performance_test.py, create_temporal_entity;
src/share/tests/temporal_test.py, create_temporal_entity;
src/examples/monitoring_system.py, create_entity), the shapes the spec fixes
as the wire encoding (spec §6). -/

/-- Split a character list at the first occurrence of `c`: the part strictly
before it and the part strictly after it, or `none` when `c` is absent. -/
def splitAtFirst (c : Char) : List Char → Option (List Char × List Char)
  | [] => none
  | x :: xs =>
      if x = c then some ([], xs)
      else (splitAtFirst c xs).map (fun p => (x :: p.1, p.2))

/-- A nonempty run of decimal digits. -/
def isDigits (l : List Char) : Bool :=
  !l.isEmpty && l.all (fun c => c.isDigit)

/-- Decimal value of a digit run (most significant digit first). -/
def digitsToNat (l : List Char) : Nat :=
  l.foldl (fun n c => n * 10 + (c.toNat - 48)) 0

/-- Decimal digit characters of `n`, most significant first. -/
def natDigits (n : Nat) : List Char :=
  if n = 0 then [Char.ofNat 48]
  else ((Nat.digits 10 n).map (fun d => Char.ofNat (d + 48))).reverse

/-- Wire encoding of an explicit temporal tag:
`timestampNanos|key:value` (spec §6). -/
def encodeTimed (ts : Nat) (k v : List Char) : List Char :=
  natDigits ts ++ Char.ofNat 124 :: (k ++ Char.ofNat 58 :: v)

/-- Wire encoding of an untimed tag: `key:value` (spec §6). -/
def encodeUntimed (k v : List Char) : List Char :=
  k ++ Char.ofNat 58 :: v

/-- The temporal prefix of a wire tag: when the part before the first bar is
a digit run, its value together with the remainder; the whole tag otherwise
(spec §6). -/
def stripTime (l : List Char) : Option Nat × List Char :=
  match splitAtFirst (Char.ofNat 124) l with
  | some p =>
      if isDigits p.1 then (some (digitsToNat p.1), p.2) else (none, l)
  | none => (none, l)

/-- Modelled from the spec: parsing a wire tag into its
`(timestamp?, key, value)` triple — a tag is `timestampNanos|key:value` when
the part before the first bar is a digit run, and `key:value` (untimed,
interpreted as "now") otherwise (spec §6, §9: parse `timestamp|key:value` once
at ingestion). -/
def parseTag (l : List Char) : Option (Option Nat × List Char × List Char) :=
  match splitAtFirst (Char.ofNat 58) (stripTime l).2 with
  | some p => some ((stripTime l).1, p.1, p.2)
  | none => none

/-! ### Python client embeddings -/

/-- Python JSON values, as returned by `response.json()`. -/
inductive PyJson where
  | obj : List (String × PyJson) → PyJson
  | arr : List PyJson → PyJson
  | str : String → PyJson
  | num : Int → PyJson
  | bool : Bool → PyJson
  | null : PyJson

/-- Whether a Python JSON value is a dict. -/
def PyJson.isObj : PyJson → Bool
  | PyJson.obj _ => true
  | _ => false

/-- The fixed dictionary `EntityDBClient._request` substitutes for an
undecodable body (src/share/cli/entitydb_client.py line 85). -/
def invalidJsonDict : PyJson :=
  PyJson.obj [("status", PyJson.str "error"),
              ("message", PyJson.str "Invalid JSON response")]

/-- Embedded from src/share/cli/entitydb_client.py,
`EntityDBClient._request` (lines 81-85): the function returns
`response.json()` when the body decodes, and the fixed error dictionary when
decoding raises `json.JSONDecodeError`.  The argument is the decode outcome of
the HTTP response body: `some j` when the body is valid JSON with value `j`,
`none` when decoding fails. -/
def requestResult (decoded : Option PyJson) : PyJson :=
  match decoded with
  | some j => j
  | none => invalidJsonDict

/-- Embedded from src/examples/monitoring_system.py,
`EntityDBClient.add_metric_value` (lines 80-108): the written tag list is the
entity's current tags with `f"value:{value}"` appended; `metric_name` is never
read, and `timestamp` is only defaulted, never used.  `value` stands for the
Python `str(value)` rendering of the float argument. -/
def addMetricValueTags (currentTags : List String) (metricName : String)
    (value : String) (timestamp : Option String) : List String :=
  currentTags ++ [String.append "value:" value]

/-- The simulation relation between a pruned and an unpruned run: equal
sequence counters and, for every key, the same most recent version. -/
def SameLast (e e' : Entity) : Prop :=
  e.nextSeq = e'.nextSeq ∧
    ∀ k, lastVersion e.timeline k = lastVersion e'.timeline k

/-- The per-key sortedness invariant: within one entity-key stream,
`(timestampNanos, sequence)` pairs strictly increase (spec §3, invariant 1). -/
def SortedStreams (tl : List TagVersion) : Prop :=
  ∀ k, (keyVersions tl k).Pairwise (fun a b => pairLtb a.pair b.pair = true)

/-- A concrete run for the retention theorem: three appends of key `value`
under `maxVersionsPerKey = 2`. -/
def c1ops : List AppendOp :=
  [⟨[("value", "10", Op.set)], 10⟩, ⟨[("value", "20", Op.set)], 20⟩,
   ⟨[("value", "30", Op.set)], 30⟩]

/-- A concrete run for the as-of theorem: two appends of key `value`. -/
def c3ops : List AppendOp :=
  [⟨[("value", "10", Op.set)], 10⟩, ⟨[("value", "20", Op.set)], 20⟩]

/-- A concrete run for the concurrent-append theorem: 100 single-tag appends,
each to its own key. -/
def c2list : List (Nat × String × String) :=
  (List.range 100).map
    (fun i => (i + 1, String.append "k" (Nat.repr i),
      String.append "v" (Nat.repr i)))

/-- Turn one `(timestamp, key, value)` request of the concurrent scenario
into an `AppendTags` call. -/
def toAppendOp (y : Nat × String × String) : AppendOp :=
  ⟨[(y.2.1, y.2.2, Op.set)], y.1⟩

/-! ### Order lemmas for `(timestampNanos, sequence)` pairs -/

theorem pairLtb_iff (a b : Nat × Nat) :
    pairLtb a b = true ↔ a.1 < b.1 ∨ (a.1 = b.1 ∧ a.2 < b.2) := by
  simp [pairLtb]

theorem pairLtb_trans {a b c : Nat × Nat} (h1 : pairLtb a b = true)
    (h2 : pairLtb b c = true) : pairLtb a c = true := by
  rw [pairLtb_iff] at h1 h2 ⊢
  omega

theorem pairLtb_irrefl (a : Nat × Nat) : pairLtb a a = false := by
  simp [pairLtb]

theorem pairLtb_asymm {a b : Nat × Nat} (h : pairLtb a b = true) :
    pairLtb b a = false := by
  rw [pairLtb_iff] at h
  simp only [pairLtb, Bool.or_eq_false_iff, Bool.and_eq_false_iff]
  constructor
  · simp only [decide_eq_false_iff_not]
    omega
  · by_cases hb : b.1 = a.1
    · right
      simp only [decide_eq_false_iff_not]
      omega
    · left
      simp [hb]

/-! ### Sub-stream lemmas -/

theorem keyVersions_append (l1 l2 : List TagVersion) (k : String) :
    keyVersions (l1 ++ l2) k = keyVersions l1 k ++ keyVersions l2 k :=
  List.filter_append _ _

theorem keyVersions_eq_nil_of_not_mem (tl : List TagVersion) (k : String)
    (h : k ∉ entityKeys tl) : keyVersions tl k = [] := by
  simp only [keyVersions]
  rw [List.filter_eq_nil_iff]
  intro v hv hk
  apply h
  rw [entityKeys, List.mem_dedup]
  exact List.mem_map.2 ⟨v, hv, by simpa using hk⟩

theorem mem_entityKeys_of_keyVersions (tl : List TagVersion) (k : String)
    (h : keyVersions tl k ≠ []) : k ∈ entityKeys tl := by
  by_contra hk
  exact h (keyVersions_eq_nil_of_not_mem tl k hk)

/-! ### Count-based pruning lemmas -/

theorem dropOldestK_sublist (e : Nat) (k : String) (tl : List TagVersion) :
    (dropOldestK e k tl).Sublist tl := by
  induction tl generalizing e with
  | nil => cases e <;> simp [dropOldestK]
  | cons v rest ih =>
      cases e with
      | zero => simp [dropOldestK]
      | succ e' =>
          rw [dropOldestK]
          by_cases hv : v.key == k
          · simp only [hv, if_pos]
            exact (ih e').cons v
          · simp only [hv]
            rw [if_neg (by simp_all)]
            exact (ih (e' + 1)).cons₂ v

theorem keyVersions_dropOldestK_ne (e : Nat) (k k' : String)
    (tl : List TagVersion) (h : k' ≠ k) :
    keyVersions (dropOldestK e k tl) k' = keyVersions tl k' := by
  simp only [keyVersions]
  induction tl generalizing e with
  | nil => cases e <;> simp [dropOldestK]
  | cons v rest ih =>
      cases e with
      | zero => rfl
      | succ e' =>
          show List.filter _ (if v.key == k then dropOldestK e' k rest
            else v :: dropOldestK (e' + 1) k rest) = _
          by_cases hv : v.key = k
          · rw [if_pos (by simp [hv])]
            rw [List.filter_cons_of_neg (by simp [hv, Ne.symm h])]
            exact ih e'
          · rw [if_neg (by simp [hv])]
            by_cases hv' : v.key = k'
            · rw [List.filter_cons_of_pos (by simp [hv']),
                List.filter_cons_of_pos (by simp [hv'])]
              rw [ih (e' + 1)]
            · rw [List.filter_cons_of_neg (by simp [hv']),
                List.filter_cons_of_neg (by simp [hv'])]
              exact ih (e' + 1)

theorem keyVersions_dropOldestK_self (e : Nat) (k : String)
    (tl : List TagVersion) :
    keyVersions (dropOldestK e k tl) k = (keyVersions tl k).drop e := by
  simp only [keyVersions]
  induction tl generalizing e with
  | nil => cases e <;> simp [dropOldestK]
  | cons v rest ih =>
      cases e with
      | zero => rfl
      | succ e' =>
          show List.filter _ (if v.key == k then dropOldestK e' k rest
            else v :: dropOldestK (e' + 1) k rest) = _
          by_cases hv : v.key = k
          · rw [if_pos (by simp [hv])]
            rw [List.filter_cons_of_pos (by simp [hv])]
            rw [List.drop_succ_cons]
            exact ih e'
          · rw [if_neg (by simp [hv])]
            rw [List.filter_cons_of_neg (by simp [hv]),
              List.filter_cons_of_neg (by simp [hv])]
            exact ih (e' + 1)

/-! ### Age-based pruning lemmas -/

theorem agePruneK_sublist (c : Nat) (k : String) (tl : List TagVersion) :
    (agePruneK c k tl).Sublist tl := by
  induction tl with
  | nil => simp [agePruneK]
  | cons v rest ih =>
      rw [agePruneK]
      by_cases hc : (v.key == k && decide (v.timestampNanos < c)
          && rest.any (fun w => w.key == k)) = true
      · rw [if_pos hc]
        exact ih.cons v
      · rw [if_neg hc]
        exact ih.cons₂ v

theorem keyVersions_agePruneK_ne (c : Nat) (k k' : String)
    (tl : List TagVersion) (h : k' ≠ k) :
    keyVersions (agePruneK c k tl) k' = keyVersions tl k' := by
  simp only [keyVersions]
  induction tl with
  | nil => simp [agePruneK]
  | cons v rest ih =>
      rw [agePruneK]
      by_cases hc : (v.key == k && decide (v.timestampNanos < c)
          && rest.any (fun w => w.key == k)) = true
      · rw [if_pos hc]
        have hv : v.key = k := by
          simp only [Bool.and_eq_true, beq_iff_eq] at hc
          exact hc.1.1
        rw [List.filter_cons_of_neg (by simp [hv, Ne.symm h])]
        exact ih
      · rw [if_neg hc]
        by_cases hv' : v.key = k'
        · rw [List.filter_cons_of_pos (by simp [hv']),
            List.filter_cons_of_pos (by simp [hv'])]
          rw [ih]
        · rw [List.filter_cons_of_neg (by simp [hv']),
            List.filter_cons_of_neg (by simp [hv'])]
          exact ih

theorem getLast?_cons_of_ne_nil {α : Type} (a : α) {l : List α} (h : l ≠ []) :
    (a :: l).getLast? = l.getLast? := by
  rw [List.getLast?_cons]
  cases hl : l.getLast? with
  | none => exact absurd (List.getLast?_eq_none_iff.1 hl) h
  | some b => rfl

theorem lastVersion_agePruneK (c : Nat) (k k' : String)
    (tl : List TagVersion) :
    lastVersion (agePruneK c k tl) k' = lastVersion tl k' := by
  by_cases h : k' = k
  · subst h
    simp only [lastVersion, keyVersions]
    induction tl with
    | nil => simp [agePruneK]
    | cons v rest ih =>
        rw [agePruneK]
        by_cases hc : (v.key == k' && decide (v.timestampNanos < c)
            && rest.any (fun w => w.key == k')) = true
        · rw [if_pos hc]
          simp only [Bool.and_eq_true, beq_iff_eq, List.any_eq_true] at hc
          obtain ⟨⟨hv, _⟩, w, hw, hwk⟩ := hc
          have hne : List.filter (fun x => x.key == k') rest ≠ [] := by
            intro hnil
            rw [List.filter_eq_nil_iff] at hnil
            exact hnil w hw (by simp [hwk])
          rw [List.filter_cons_of_pos (by simp [hv])]
          rw [getLast?_cons_of_ne_nil v hne]
          exact ih
        · rw [if_neg hc]
          by_cases hv : v.key = k'
          · rw [List.filter_cons_of_pos (by simp [hv]),
              List.filter_cons_of_pos (by simp [hv])]
            rw [List.getLast?_cons, List.getLast?_cons, ih]
          · rw [List.filter_cons_of_neg (by simp [hv]),
              List.filter_cons_of_neg (by simp [hv])]
            exact ih
  · simp only [lastVersion]
    rw [keyVersions_agePruneK_ne c k k' tl h]

/-! ### Combined pruning lemmas -/

theorem keepCount_pos {p : RetentionPolicy} {keep : Nat}
    (h : p.keepCount = some keep) : 1 ≤ keep := by
  rw [RetentionPolicy.keepCount] at h
  cases hm : p.maxVersionsPerKey with
  | none => rw [hm] at h; simp at h
  | some n =>
      rw [hm] at h
      have h2 : max n 1 = keep := by simpa using h
      calc 1 ≤ max n 1 := Nat.le_max_right n 1
        _ = keep := h2

theorem pruneCount_sublist (p : RetentionPolicy) (k : String)
    (tl : List TagVersion) : (pruneCount p k tl).Sublist tl := by
  rw [pruneCount]
  cases p.keepCount with
  | none => exact List.Sublist.refl tl
  | some keep => exact dropOldestK_sublist _ k tl

theorem lastVersion_pruneCount (p : RetentionPolicy) (k k' : String)
    (tl : List TagVersion) :
    lastVersion (pruneCount p k tl) k' = lastVersion tl k' := by
  rw [pruneCount]
  cases hk : p.keepCount with
  | none => rfl
  | some keep =>
      by_cases h : k' = k
      · subst h
        simp only [lastVersion]
        rw [keyVersions_dropOldestK_self]
        rw [List.getLast?_drop]
        have hkeep : 1 ≤ keep := keepCount_pos hk
        by_cases hz : keyVersions tl k' = []
        · rw [if_pos (by simp [hz, countKey])]
          simp [hz]
        · rw [if_neg ?_]
          have hlen : 0 < (keyVersions tl k').length :=
            List.length_pos_of_ne_nil hz
          simp only [countKey]
          omega
      · simp only [lastVersion]
        rw [keyVersions_dropOldestK_ne _ k k' tl h]

theorem pruneAge_sublist (p : RetentionPolicy) (now : Nat) (k : String)
    (tl : List TagVersion) : (pruneAge p now k tl).Sublist tl := by
  rw [pruneAge]
  cases p.maxAgeNanos with
  | none => exact List.Sublist.refl tl
  | some a => exact agePruneK_sublist _ k tl

theorem lastVersion_pruneAge (p : RetentionPolicy) (now : Nat) (k k' : String)
    (tl : List TagVersion) :
    lastVersion (pruneAge p now k tl) k' = lastVersion tl k' := by
  rw [pruneAge]
  cases p.maxAgeNanos with
  | none => rfl
  | some a => exact lastVersion_agePruneK _ k k' tl

theorem pruneKey_sublist (p : RetentionPolicy) (now : Nat) (k : String)
    (tl : List TagVersion) : (pruneKey p now k tl).Sublist tl :=
  (pruneAge_sublist p now k _).trans (pruneCount_sublist p k tl)

theorem lastVersion_pruneKey (p : RetentionPolicy) (now : Nat) (k k' : String)
    (tl : List TagVersion) :
    lastVersion (pruneKey p now k tl) k' = lastVersion tl k' := by
  rw [pruneKey, lastVersion_pruneAge, lastVersion_pruneCount]

theorem pruneKeys_sublist (p : RetentionPolicy) (now : Nat) (ks : List String)
    (tl : List TagVersion) : (pruneKeys p now ks tl).Sublist tl := by
  induction ks generalizing tl with
  | nil => exact List.Sublist.refl tl
  | cons k rest ih =>
      exact (ih (pruneKey p now k tl)).trans (pruneKey_sublist p now k tl)

theorem lastVersion_pruneKeys (p : RetentionPolicy) (now : Nat)
    (ks : List String) (k' : String) (tl : List TagVersion) :
    lastVersion (pruneKeys p now ks tl) k' = lastVersion tl k' := by
  induction ks generalizing tl with
  | nil => rfl
  | cons k rest ih =>
      rw [pruneKeys, List.foldl_cons, ← pruneKeys, ih, lastVersion_pruneKey]

/-! ### Count bounds under pruning -/

theorem countKey_sublist_le {tl1 tl2 : List TagVersion} (k : String)
    (h : tl1.Sublist tl2) : countKey tl1 k ≤ countKey tl2 k := by
  simp only [countKey, keyVersions]
  exact (h.filter (fun v => v.key == k)).length_le

theorem countKey_pruneCount_le_keep (p : RetentionPolicy) (k : String)
    (tl : List TagVersion) {keep : Nat} (h : p.keepCount = some keep) :
    countKey (pruneCount p k tl) k ≤ keep := by
  have hrw : pruneCount p k tl = dropOldestK (countKey tl k - keep) k tl := by
    rw [pruneCount, h]
  rw [hrw]
  simp only [countKey]
  rw [keyVersions_dropOldestK_self, List.length_drop]
  have h1 := keepCount_pos h
  omega

theorem countKey_pruneKey_le_keep (p : RetentionPolicy) (now : Nat)
    (k : String) (tl : List TagVersion) {keep : Nat}
    (h : p.keepCount = some keep) :
    countKey (pruneKey p now k tl) k ≤ keep :=
  le_trans (countKey_sublist_le k (pruneAge_sublist p now k _))
    (countKey_pruneCount_le_keep p k tl h)

theorem keyVersions_pruneCount_ne (p : RetentionPolicy) (k k' : String)
    (tl : List TagVersion) (h : k' ≠ k) :
    keyVersions (pruneCount p k tl) k' = keyVersions tl k' := by
  rw [pruneCount]
  cases p.keepCount with
  | none => rfl
  | some keep => exact keyVersions_dropOldestK_ne _ k k' tl h

theorem keyVersions_pruneAge_ne (p : RetentionPolicy) (now : Nat)
    (k k' : String) (tl : List TagVersion) (h : k' ≠ k) :
    keyVersions (pruneAge p now k tl) k' = keyVersions tl k' := by
  rw [pruneAge]
  cases p.maxAgeNanos with
  | none => rfl
  | some a => exact keyVersions_agePruneK_ne _ k k' tl h

theorem keyVersions_pruneKey_ne (p : RetentionPolicy) (now : Nat)
    (k k' : String) (tl : List TagVersion) (h : k' ≠ k) :
    keyVersions (pruneKey p now k tl) k' = keyVersions tl k' := by
  rw [pruneKey, keyVersions_pruneAge_ne _ _ _ _ _ h,
    keyVersions_pruneCount_ne _ _ _ _ h]

theorem keyVersions_pruneKeys_not_mem (p : RetentionPolicy) (now : Nat)
    (ks : List String) (k' : String) (tl : List TagVersion) (h : k' ∉ ks) :
    keyVersions (pruneKeys p now ks tl) k' = keyVersions tl k' := by
  induction ks generalizing tl with
  | nil => rfl
  | cons a rest ih =>
      rw [pruneKeys, List.foldl_cons, ← pruneKeys]
      rw [ih _ (fun hm => h (List.mem_cons_of_mem a hm))]
      exact keyVersions_pruneKey_ne p now a k' tl
        (fun he => h (he ▸ List.mem_cons_self a rest))

theorem countKey_pruneKeys_le_keep (p : RetentionPolicy) (now : Nat)
    (ks : List String) (k : String) (tl : List TagVersion) {keep : Nat}
    (hk : p.keepCount = some keep) (h : k ∈ ks) :
    countKey (pruneKeys p now ks tl) k ≤ keep := by
  induction ks generalizing tl with
  | nil => cases h
  | cons a rest ih =>
      rw [pruneKeys, List.foldl_cons, ← pruneKeys]
      by_cases hr : k ∈ rest
      · exact ih _ hr
      · have ha : k = a := by
          cases List.mem_cons.1 h with
          | inl h1 => exact h1
          | inr h2 => exact absurd h2 hr
        subst ha
        simp only [countKey]
        rw [keyVersions_pruneKeys_not_mem p now rest k _ hr]
        exact countKey_pruneKey_le_keep p now k tl hk

/-! ### Batch construction lemmas -/

theorem mem_mkVersions {ts s : Nat} {tags : List (String × String × Op)}
    {v : TagVersion} (h : v ∈ mkVersions ts s tags) :
    v.key ∈ tags.map (fun t => t.1) ∧ v.timestampNanos = ts ∧
      s ≤ v.sequence := by
  induction tags generalizing s with
  | nil => cases h
  | cons t rest ih =>
      obtain ⟨k1, v1, o1⟩ := t
      rw [mkVersions] at h
      cases List.mem_cons.1 h with
      | inl h1 =>
          subst h1
          exact ⟨List.mem_cons_self _ _, rfl, Nat.le_refl s⟩
      | inr h2 =>
          obtain ⟨hk, hts, hs⟩ := ih h2
          exact ⟨List.mem_cons_of_mem _ hk, hts, by omega⟩

theorem keyVersions_mkVersions_nil {ts s : Nat}
    {tags : List (String × String × Op)} {k : String}
    (h : k ∉ tags.map (fun t => t.1)) :
    keyVersions (mkVersions ts s tags) k = [] := by
  simp only [keyVersions]
  rw [List.filter_eq_nil_iff]
  intro v hv hk
  exact h (by
    have := (mem_mkVersions hv).1
    rwa [show v.key = k by simpa using hk] at this)

theorem pairwise_mkVersions (ts s : Nat) (tags : List (String × String × Op)) :
    (mkVersions ts s tags).Pairwise
      (fun a b => pairLtb a.pair b.pair = true) := by
  induction tags generalizing s with
  | nil => exact List.Pairwise.nil
  | cons t rest ih =>
      obtain ⟨k1, v1, o1⟩ := t
      rw [mkVersions]
      refine List.Pairwise.cons ?_ (ih (s + 1))
      intro w hw
      obtain ⟨_, hts, hs⟩ := mem_mkVersions hw
      rw [pairLtb_iff]
      right
      constructor
      · simp [TagVersion.pair, hts]
      · simp [TagVersion.pair]
        omega

/-! ### Entity-level lemmas -/

theorem lastPair_congr {tl1 tl2 : List TagVersion}
    (h : ∀ k, lastVersion tl1 k = lastVersion tl2 k) (k : String) :
    lastPair tl1 k = lastPair tl2 k := by
  rw [lastPair, lastPair, h k]

theorem batchOk_congr {tl1 tl2 : List TagVersion}
    (h : ∀ k, lastVersion tl1 k = lastVersion tl2 k) (ts s : Nat)
    (tags : List (String × String × Op)) :
    batchOk tl1 ts s tags = batchOk tl2 ts s tags := by
  have hfun : (fun v : TagVersion =>
        okForKey tl1 v.key v.timestampNanos v.sequence)
      = (fun v : TagVersion =>
        okForKey tl2 v.key v.timestampNanos v.sequence) := by
    funext v
    rw [okForKey, okForKey, lastPair_congr h v.key]
  rw [batchOk, batchOk, hfun]

theorem lastVersion_append (tl vs : List TagVersion) (k : String) :
    lastVersion (tl ++ vs) k =
      if keyVersions vs k = [] then lastVersion tl k
      else (keyVersions vs k).getLast? := by
  rw [lastVersion, keyVersions_append]
  by_cases hk : keyVersions vs k = []
  · rw [if_pos hk, hk, List.append_nil]
    rfl
  · rw [if_neg hk]
    exact List.getLast?_append_of_ne_nil _ hk

theorem sameLast_applyOp (p : RetentionPolicy) {e e' : Entity}
    (h : SameLast e e') (op : AppendOp) :
    SameLast (applyOp p e op) (applyOpNP e' op) := by
  obtain ⟨hseq, hlast⟩ := h
  have hb : batchOk e.timeline op.ts e.nextSeq op.tags
      = batchOk e'.timeline op.ts e'.nextSeq op.tags := by
    rw [hseq]
    exact batchOk_congr hlast op.ts e'.nextSeq op.tags
  by_cases hok : batchOk e.timeline op.ts e.nextSeq op.tags = true
  · have hok' : batchOk e'.timeline op.ts e'.nextSeq op.tags = true :=
      hb ▸ hok
    rw [applyOp, appendTags, if_pos hok, applyOpNP, appendTagsNP, if_pos hok']
    refine ⟨by simpa using hseq, fun k => ?_⟩
    simp only
    rw [lastVersion_pruneKeys]
    rw [lastVersion_append, lastVersion_append, hseq]
    by_cases hk : keyVersions (mkVersions op.ts e'.nextSeq op.tags) k = []
    · rw [if_pos hk, if_pos hk]
      exact hlast k
    · rw [if_neg hk, if_neg hk]
  · have hok' : ¬ batchOk e'.timeline op.ts e'.nextSeq op.tags = true :=
      hb ▸ hok
    rw [applyOp, appendTags, if_neg hok, applyOpNP, appendTagsNP, if_neg hok']
    exact ⟨hseq, hlast⟩

theorem sameLast_applyOps (p : RetentionPolicy) {e e' : Entity}
    (h : SameLast e e') (ops : List AppendOp) :
    SameLast (applyOps p e ops) (applyOpsNP e' ops) := by
  induction ops generalizing e e' with
  | nil => exact h
  | cons op rest ih =>
      rw [applyOps, List.foldl_cons, ← applyOps,
        applyOpsNP, List.foldl_cons, ← applyOpsNP]
      exact ih (sameLast_applyOp p h op)

theorem countKey_applyOp_le (p : RetentionPolicy) {keep : Nat}
    (hk : p.keepCount = some keep) {e : Entity}
    (h : ∀ k, countKey e.timeline k ≤ keep) (op : AppendOp) :
    ∀ k, countKey (applyOp p e op).timeline k ≤ keep := by
  intro k
  by_cases hok : batchOk e.timeline op.ts e.nextSeq op.tags = true
  · rw [applyOp, appendTags, if_pos hok]
    simp only
    by_cases ht : k ∈ op.tags.map (fun t => t.1)
    · exact countKey_pruneKeys_le_keep p op.ts _ k _ hk ht
    · simp only [countKey]
      rw [keyVersions_pruneKeys_not_mem p op.ts _ k _ ht]
      rw [keyVersions_append, keyVersions_mkVersions_nil ht,
        List.append_nil]
      exact h k
  · rw [applyOp, appendTags, if_neg hok]
    exact h k

theorem countKey_applyOps_le (p : RetentionPolicy) {keep : Nat}
    (hk : p.keepCount = some keep) {e : Entity}
    (h : ∀ k, countKey e.timeline k ≤ keep) (ops : List AppendOp) :
    ∀ k, countKey (applyOps p e ops).timeline k ≤ keep := by
  induction ops generalizing e with
  | nil => exact h
  | cons op rest ih =>
      rw [applyOps, List.foldl_cons, ← applyOps]
      exact ih (countKey_applyOp_le p hk h op)

theorem pairwise_getLast?_max {α : Type} {r : α → α → Prop} {l : List α}
    {m : α} (hp : List.Pairwise r l) (hm : l.getLast? = some m) :
    ∀ x ∈ l, x = m ∨ r x m := by
  induction l with
  | nil => cases hm
  | cons a rest ih =>
      intro x hx
      cases hrest : rest with
      | nil =>
          subst hrest
          left
          have ha : x = a := by simpa using hx
          have hm2 : a = m := by
            simp only [List.getLast?_cons, List.getLast?_nil] at hm
            simpa using hm
          rw [ha, hm2]
      | cons b rest2 =>
          have hne : rest ≠ [] := by simp [hrest]
          rw [getLast?_cons_of_ne_nil a hne] at hm
          have hmm : m ∈ rest := List.mem_of_mem_getLast? hm
          cases List.mem_cons.1 hx with
          | inl h1 =>
              right
              subst h1
              exact (List.pairwise_cons.1 hp).1 m hmm
          | inr h2 =>
              exact ih (List.pairwise_cons.1 hp).2 hm x h2

theorem sortedStreams_applyOp (p : RetentionPolicy) {e : Entity}
    (h : SortedStreams e.timeline) (op : AppendOp) :
    SortedStreams (applyOp p e op).timeline := by
  by_cases hok : batchOk e.timeline op.ts e.nextSeq op.tags = true
  · rw [applyOp, appendTags, if_pos hok]
    intro k
    simp only
    have hsub : (keyVersions (pruneKeys p op.ts (op.tags.map (fun t => t.1))
          (e.timeline ++ mkVersions op.ts e.nextSeq op.tags)) k).Sublist
        (keyVersions (e.timeline ++ mkVersions op.ts e.nextSeq op.tags) k) :=
      (pruneKeys_sublist p op.ts _ _).filter _
    refine List.Pairwise.sublist hsub ?_
    rw [keyVersions_append]
    rw [List.pairwise_append]
    refine ⟨h k, ?_, ?_⟩
    · exact List.Pairwise.sublist (List.filter_sublist _)
        (pairwise_mkVersions _ _ _)
    · intro y hy w hw
      have hyk : y ∈ keyVersions e.timeline k := hy
      obtain ⟨hwm, hwk⟩ := List.mem_filter.1 hw
      have hok2 := (List.all_eq_true.1 hok) w hwm
      rw [okForKey] at hok2
      have hwkey : w.key = k := by simpa using hwk
      rw [hwkey] at hok2
      cases hlp : lastPair e.timeline k with
      | none =>
          rw [lastPair] at hlp
          have : lastVersion e.timeline k = none := by
            cases hv : lastVersion e.timeline k
            · rfl
            · rw [hv] at hlp; cases hlp
          rw [lastVersion, List.getLast?_eq_none_iff] at this
          rw [this] at hyk
          cases hyk
      | some lp =>
          rw [hlp] at hok2
          have hlv : lastVersion e.timeline k ≠ none := by
            intro hn
            rw [lastPair, hn] at hlp
            cases hlp
          cases hv : lastVersion e.timeline k with
          | none => exact absurd hv hlv
          | some lastv =>
              have hlp2 : lp = lastv.pair := by
                rw [lastPair, hv] at hlp
                simpa using hlp.symm
              have hmax := pairwise_getLast?_max (h k) hv y hyk
              cases hmax with
              | inl heq =>
                  subst heq
                  rw [← hlp2]
                  exact hok2
              | inr hlt =>
                  rw [← hlp2] at hlt
                  exact pairLtb_trans hlt hok2
  · rw [applyOp, appendTags, if_neg hok]
    exact h

theorem sortedStreams_applyOps (p : RetentionPolicy) {e : Entity}
    (h : SortedStreams e.timeline) (ops : List AppendOp) :
    SortedStreams (applyOps p e ops).timeline := by
  induction ops generalizing e with
  | nil => exact h
  | cons op rest ih =>
      rw [applyOps, List.foldl_cons, ← applyOps]
      exact ih (sortedStreams_applyOp p h op)

theorem keyVersions_applyOp_untouched (p : RetentionPolicy) (e : Entity)
    (op : AppendOp) (k : String) (h : ∀ t ∈ op.tags, t.1 ≠ k) :
    keyVersions (applyOp p e op).timeline k = keyVersions e.timeline k := by
  have hnm : k ∉ op.tags.map (fun t => t.1) := by
    intro hm
    obtain ⟨t, ht, hk⟩ := List.mem_map.1 hm
    exact h t ht hk
  by_cases hok : batchOk e.timeline op.ts e.nextSeq op.tags = true
  · rw [applyOp, appendTags, if_pos hok]
    simp only
    rw [keyVersions_pruneKeys_not_mem p op.ts _ k _ hnm]
    rw [keyVersions_append, keyVersions_mkVersions_nil hnm, List.append_nil]
  · rw [applyOp, appendTags, if_neg hok]

theorem keyVersions_applyOps_untouched (p : RetentionPolicy) (e : Entity)
    (ops : List AppendOp) (k : String)
    (h : ∀ op ∈ ops, ∀ t ∈ op.tags, t.1 ≠ k) :
    keyVersions (applyOps p e ops).timeline k = keyVersions e.timeline k := by
  induction ops generalizing e with
  | nil => rfl
  | cons op rest ih =>
      rw [applyOps, List.foldl_cons, ← applyOps]
      rw [ih _ (fun o ho => h o (List.mem_cons_of_mem op ho))]
      exact keyVersions_applyOp_untouched p e op k
        (h op (List.mem_cons_self op rest))

theorem lastVersion_applyOp_fresh (p : RetentionPolicy) (e : Entity)
    (k v : String) (ts : Nat) (hfresh : keyVersions e.timeline k = []) :
    lastVersion (applyOp p e ⟨[(k, v, Op.set)], ts⟩).timeline k
      = some ⟨ts, k, v, Op.set, e.nextSeq⟩ := by
  have hok : batchOk e.timeline ts e.nextSeq [(k, v, Op.set)] = true := by
    simp only [batchOk, mkVersions, List.all_cons, List.all_nil,
      Bool.and_true]
    rw [okForKey]
    have : lastPair e.timeline k = none := by
      rw [lastPair, lastVersion, hfresh]
      rfl
    rw [this]
  rw [applyOp, appendTags, if_pos hok]
  simp only
  rw [lastVersion_pruneKeys, lastVersion_append]
  have hkv : keyVersions (mkVersions ts e.nextSeq [(k, v, Op.set)]) k
      = [⟨ts, k, v, Op.set, e.nextSeq⟩] := by
    simp [mkVersions, keyVersions]
  rw [hkv]
  rw [if_neg (by simp)]
  rfl

/-! ### Snapshot reconstruction lemmas -/

theorem createdNanos_applyOp (p : RetentionPolicy) (e : Entity)
    (op : AppendOp) : (applyOp p e op).createdNanos = e.createdNanos := by
  by_cases hok : batchOk e.timeline op.ts e.nextSeq op.tags = true
  · rw [applyOp, appendTags, if_pos hok]
  · rw [applyOp, appendTags, if_neg hok]

theorem createdNanos_applyOps (p : RetentionPolicy) (e : Entity)
    (ops : List AppendOp) :
    (applyOps p e ops).createdNanos = e.createdNanos := by
  induction ops generalizing e with
  | nil => rfl
  | cons op rest ih =>
      rw [applyOps, List.foldl_cons, ← applyOps, ih, createdNanos_applyOp]

theorem asOfVersion_some (tl : List TagVersion) (ts : Nat) (k : String)
    {v : TagVersion} (h : asOfVersion tl ts k = some v) :
    v ∈ keyVersions tl k ∧ v.timestampNanos ≤ ts := by
  rw [asOfVersion] at h
  have hm := List.mem_of_mem_getLast? h
  obtain ⟨h1, h2⟩ := List.mem_filter.1 hm
  exact ⟨h1, by simpa using h2⟩

theorem asOfVal_some_iff (tl : List TagVersion) (ts : Nat) (k : String)
    (val : String) :
    asOfVal tl ts k = some val ↔
      ∃ v, asOfVersion tl ts k = some v ∧ v.op = Op.set ∧ v.value = val := by
  rw [asOfVal]
  cases hv : asOfVersion tl ts k with
  | none =>
      simp
  | some v =>
      cases ho : v.op with
      | set => simp [ho, eq_comm]
      | del => simp [ho]

theorem mem_asOf_view (tl : List TagVersion) (ts : Nat) (k val : String) :
    (k, val) ∈ (entityKeys tl).filterMap
        (fun k' => (asOfVal tl ts k').map (fun v => (k', v))) ↔
      asOfVal tl ts k = some val := by
  rw [List.mem_filterMap]
  constructor
  · intro ⟨a, _, heq⟩
    cases hv : asOfVal tl ts a with
    | none => rw [hv] at heq; cases heq
    | some w =>
        rw [hv] at heq
        have hp : (a, w) = (k, val) := by simpa using heq
        have ha : a = k := congrArg Prod.fst hp
        have hw : w = val := congrArg Prod.snd hp
        rw [← ha, hv, hw]
  · intro h
    refine ⟨k, ?_, by rw [h]; rfl⟩
    obtain ⟨v, hv, _, _⟩ := (asOfVal_some_iff tl ts k val).1 h
    have hmem := (asOfVersion_some tl ts k hv).1
    exact mem_entityKeys_of_keyVersions tl k (List.ne_nil_of_mem hmem)

theorem le_foldl_maxTs (l : List TagVersion) (a : Nat) :
    a ≤ l.foldl (fun m v => max m v.timestampNanos) a := by
  induction l generalizing a with
  | nil => exact Nat.le_refl a
  | cons v rest ih =>
      rw [List.foldl_cons]
      exact le_trans (Nat.le_max_left a v.timestampNanos) (ih _)

theorem mem_le_foldl_maxTs (l : List TagVersion) (a : Nat) {v : TagVersion}
    (h : v ∈ l) :
    v.timestampNanos ≤ l.foldl (fun m w => max m w.timestampNanos) a := by
  induction l generalizing a with
  | nil => cases h
  | cons w rest ih =>
      rw [List.foldl_cons]
      cases List.mem_cons.1 h with
      | inl he =>
          subst he
          exact le_trans (Nat.le_max_right a v.timestampNanos)
            (le_foldl_maxTs rest _)
      | inr hm => exact ih _ hm

/-! ### Change feed lemmas -/

theorem afterToken_sublist (token : Option (Nat × Nat)) (l : List Change) :
    (afterToken token l).Sublist l := by
  cases token with
  | none => exact List.Sublist.refl l
  | some t => exact List.dropWhile_sublist _

theorem afterToken_take (l : List Change) (n : Nat)
    (hs : l.Pairwise (fun a b => pairLtb a.pair b.pair = true)) :
    afterToken (nextToken (l.take n)) l = l.drop n := by
  induction l generalizing n with
  | nil =>
      cases n <;> rfl
  | cons c rest ih =>
      cases n with
      | zero => rfl
      | succ m =>
          rw [List.take_succ_cons]
          by_cases hr : rest.take m = []
          · have htok : nextToken (c :: rest.take m) = some c.pair := by
              rw [nextToken, hr]
              rfl
            rw [htok, afterToken]
            rw [List.dropWhile_cons]
            rw [if_pos (by rw [pairLtb_irrefl]; rfl)]
            have hrest : List.dropWhile
                (fun x => ! pairLtb c.pair x.pair) rest = rest := by
              cases hrc : rest with
              | nil => rfl
              | cons d rest2 =>
                  have hcd : pairLtb c.pair d.pair = true := by
                    apply (List.pairwise_cons.1 hs).1 d
                    rw [hrc]
                    exact List.mem_cons_self d rest2
                  rw [List.dropWhile_cons, hcd]
                  simp
            rw [hrest]
            have : m = 0 ∨ rest = [] := by
              cases m with
              | zero => exact Or.inl rfl
              | succ m2 =>
                  cases hrc : rest with
                  | nil => exact Or.inr rfl
                  | cons d rest2 =>
                      rw [hrc] at hr
                      cases hr
            rw [List.drop_succ_cons]
            cases this with
            | inl h0 => rw [h0, List.drop_zero]
            | inr hnil => rw [hnil]; simp
          · have htok : nextToken (c :: rest.take m)
                = nextToken (rest.take m) := by
              rw [nextToken, nextToken, getLast?_cons_of_ne_nil c hr]
            rw [htok]
            obtain ⟨x, hx⟩ : ∃ x, (rest.take m).getLast? = some x := by
              cases hlast : (rest.take m).getLast? with
              | none => exact absurd (List.getLast?_eq_none_iff.1 hlast) hr
              | some x => exact ⟨x, rfl⟩
            have hxm : x ∈ rest := List.take_subset m rest
              (List.mem_of_mem_getLast? hx)
            have hcx : pairLtb c.pair x.pair = true :=
              (List.pairwise_cons.1 hs).1 x hxm
            have htok2 : nextToken (rest.take m) = some x.pair := by
              rw [nextToken, hx]
              rfl
            rw [htok2, afterToken, List.dropWhile_cons]
            rw [if_pos (by rw [pairLtb_asymm hcx]; rfl)]
            rw [List.drop_succ_cons]
            have := ih m (List.pairwise_cons.1 hs).2
            rw [htok2, afterToken] at this
            exact this

/-! ### Wire codec lemmas -/

theorem splitAtFirst_cons_self (c : Char) (l : List Char) :
    splitAtFirst c (c :: l) = some ([], l) := by
  rw [splitAtFirst, if_pos rfl]

theorem splitAtFirst_not_mem (c : Char) (l : List Char) (h : c ∉ l) :
    splitAtFirst c l = none := by
  induction l with
  | nil => rfl
  | cons x rest ih =>
      have hx : ¬ x = c := fun he => h (he ▸ List.mem_cons_self x rest)
      rw [splitAtFirst, if_neg hx]
      rw [ih (fun hm => h (List.mem_cons_of_mem x hm))]
      rfl

theorem splitAtFirst_append_not_mem (c : Char) (l1 l2 : List Char)
    (h : c ∉ l1) :
    splitAtFirst c (l1 ++ l2)
      = (splitAtFirst c l2).map (fun p => (l1 ++ p.1, p.2)) := by
  induction l1 with
  | nil =>
      cases hsp : splitAtFirst c l2 <;> simp [hsp]
  | cons x rest ih =>
      have hx : ¬ x = c := fun he => h (he ▸ List.mem_cons_self x rest)
      rw [List.cons_append, splitAtFirst, if_neg hx]
      rw [ih (fun hm => h (List.mem_cons_of_mem x hm))]
      cases hsp : splitAtFirst c l2 <;> simp [hsp]

theorem natDigits_all_digit (n : Nat) :
    ∀ c ∈ natDigits n, c.isDigit = true := by
  rw [natDigits]
  by_cases h0 : n = 0
  · rw [if_pos h0]
    intro c hc
    have : c = Char.ofNat 48 := List.mem_singleton.1 hc
    rw [this]
    decide
  · rw [if_neg h0]
    intro c hc
    rw [List.mem_reverse] at hc
    obtain ⟨d, hd, hdc⟩ := List.mem_map.1 hc
    have hlt : d < 10 := Nat.digits_lt_base (by norm_num) hd
    rw [← hdc]
    interval_cases d <;> decide

theorem natDigits_ne_nil (n : Nat) : natDigits n ≠ [] := by
  rw [natDigits]
  by_cases h0 : n = 0
  · rw [if_pos h0]
    simp
  · rw [if_neg h0]
    simp [h0, Nat.digits_ne_nil_iff_ne_zero]

theorem isDigits_of (l : List Char) (hne : l ≠ [])
    (hall : ∀ c ∈ l, c.isDigit = true) : isDigits l = true := by
  cases l with
  | nil => exact absurd rfl hne
  | cons x rest =>
      simp only [isDigits, List.isEmpty_cons, Bool.not_false, Bool.true_and]
      exact List.all_eq_true.2 hall

theorem isDigits_natDigits (n : Nat) : isDigits (natDigits n) = true :=
  isDigits_of _ (natDigits_ne_nil n) (natDigits_all_digit n)

theorem isDigits_eq_false_of (l : List Char) {c : Char} (hc : c ∈ l)
    (hd : c.isDigit = false) : isDigits l = false := by
  cases h : l.all (fun x => x.isDigit) with
  | false => simp [isDigits, h]
  | true => exact absurd (List.all_eq_true.1 h c hc) (by simp [hd])

theorem foldr_ofDigits (ds : List Nat) (h : ∀ d ∈ ds, d < 10) :
    List.foldr (fun d acc => acc * 10 + ((Char.ofNat (d + 48)).toNat - 48))
        0 ds = Nat.ofDigits 10 ds := by
  induction ds with
  | nil => simp [Nat.ofDigits_nil]
  | cons d rest ih =>
      rw [List.foldr_cons, ih (fun x hx => h x (List.mem_cons_of_mem d hx)),
        Nat.ofDigits_cons]
      have hd : d < 10 := h d (List.mem_cons_self d rest)
      have htn : (Char.ofNat (d + 48)).toNat = d + 48 := by
        interval_cases d <;> decide
      rw [htn]
      omega

theorem digitsToNat_natDigits (n : Nat) : digitsToNat (natDigits n) = n := by
  rw [natDigits]
  by_cases h0 : n = 0
  · rw [if_pos h0, h0]
    decide
  · rw [if_neg h0]
    rw [digitsToNat, List.foldl_reverse, List.foldr_map]
    rw [foldr_ofDigits _ (fun d hd => Nat.digits_lt_base (by norm_num) hd)]
    exact Nat.ofDigits_digits 10 n

theorem bar_not_mem_natDigits (n : Nat) : Char.ofNat 124 ∉ natDigits n := by
  intro h
  have := natDigits_all_digit n _ h
  exact absurd this (by decide)

theorem stripTime_timed (ts : Nat) (rest : List Char) :
    stripTime (natDigits ts ++ Char.ofNat 124 :: rest) = (some ts, rest) := by
  rw [stripTime]
  rw [splitAtFirst_append_not_mem _ _ _ (bar_not_mem_natDigits ts)]
  rw [splitAtFirst_cons_self]
  simp only [Option.map_some', List.append_nil]
  rw [if_pos (isDigits_natDigits ts), digitsToNat_natDigits]

theorem stripTime_untimed (k v : List Char) (hbar : Char.ofNat 124 ∉ k) :
    stripTime (k ++ Char.ofNat 58 :: v)
      = (none, k ++ Char.ofNat 58 :: v) := by
  rw [stripTime]
  rw [splitAtFirst_append_not_mem _ _ _ hbar]
  rw [splitAtFirst, if_neg (by decide)]
  cases hv : splitAtFirst (Char.ofNat 124) v with
  | none => rfl
  | some p =>
      simp only [Option.map_some']
      have hfalse : isDigits (k ++ Char.ofNat 58 :: p.1) = false :=
        isDigits_eq_false_of _
          (List.mem_append.2 (Or.inr (List.mem_cons_self _ _))) (by decide)
      rw [if_neg (by rw [hfalse]; exact Bool.false_ne_true)]

/-! ### Claim theorems -/

/-- C1: after any sequence of AppendTags operations, the number of versions
returned by `history(E, K)` is at most the matching policy's
`maxVersionsPerKey`, and the most recent version of every key is never
pruned — the retained last version (hence the CurrentView) coincides with
that of a retention-free run, so `CurrentView` stays fully defined from the
timeline. -/
theorem retention_bound_and_latest_never_pruned
    (p : RetentionPolicy) (n : Nat) (hp : p.maxVersionsPerKey = some n)
    (hn : 1 ≤ n) (id dataset ty : String) (created : Nat)
    (ops : List AppendOp) (k : String) :
    (history (applyOps p (entity0 id dataset ty created) ops) k).length ≤ n ∧
    lastVersion (applyOps p (entity0 id dataset ty created) ops).timeline k
      = lastVersion
          (applyOpsNP (entity0 id dataset ty created) ops).timeline k ∧
    latestVal (applyOps p (entity0 id dataset ty created) ops) k
      = latestVal (applyOpsNP (entity0 id dataset ty created) ops) k := by
  have hkeep : p.keepCount = some n := by
    rw [RetentionPolicy.keepCount, hp]
    simp [Nat.max_eq_left hn]
  have hinit : ∀ k', countKey (entity0 id dataset ty created).timeline k' ≤ n :=
    fun k' => by simp [entity0, countKey, keyVersions]
  have hsame : SameLast (applyOps p (entity0 id dataset ty created) ops)
      (applyOpsNP (entity0 id dataset ty created) ops) :=
    sameLast_applyOps p ⟨rfl, fun _ => rfl⟩ ops
  refine ⟨countKey_applyOps_le p hkeep hinit ops k, hsame.2 k, ?_⟩
  rw [latestVal, latestVal, hsame.2 k]

/-- Witness for the retention theorem at a concrete policy and run. -/
theorem retention_bound_witness :
    (⟨some 2, none⟩ : RetentionPolicy).maxVersionsPerKey = some 2 ∧ 1 ≤ 2 ∧
      ((history (applyOps ⟨some 2, none⟩ (entity0 "e" "d" "t" 0) c1ops)
          "value").length ≤ 2 ∧
        lastVersion (applyOps ⟨some 2, none⟩ (entity0 "e" "d" "t" 0)
            c1ops).timeline "value"
          = lastVersion (applyOpsNP (entity0 "e" "d" "t" 0) c1ops).timeline
              "value" ∧
        latestVal (applyOps ⟨some 2, none⟩ (entity0 "e" "d" "t" 0) c1ops)
            "value"
          = latestVal (applyOpsNP (entity0 "e" "d" "t" 0) c1ops) "value") :=
  ⟨rfl, by decide,
    retention_bound_and_latest_never_pruned ⟨some 2, none⟩ 2 rfl (by decide)
      "e" "d" "t" 0 c1ops "value"⟩

/-- C2: 100 concurrent AppendTags calls to one entity, each setting a
distinct key, lose no update: per-entity serialization means every execution
equals some sequential order (a permutation of the requests), and after any
such order `GetLatest` holds every key with its value. -/
theorem concurrent_appends_no_lost_updates
    (p : RetentionPolicy) (id dataset ty : String) (created : Nat)
    (l l' : List (Nat × String × String))
    (hlen : l.length = 100)
    (hnodup : (l.map (fun x => x.2.1)).Nodup)
    (hperm : l'.Perm l)
    (x : Nat × String × String) (hx : x ∈ l) :
    latestVal (applyOps p (entity0 id dataset ty created)
        (l'.map toAppendOp)) x.2.1 = some x.2.2 := by
  have hx' : x ∈ l' := hperm.mem_iff.2 hx
  obtain ⟨A, B, hAB⟩ := List.append_of_mem hx'
  subst hAB
  have hnodup' : ((A ++ x :: B).map (fun y => y.2.1)).Nodup :=
    ((hperm.map (fun y => y.2.1)).nodup_iff).2 hnodup
  rw [List.map_append, List.map_cons, List.nodup_middle] at hnodup'
  have hknotin := (List.nodup_cons.1 hnodup').1
  have hA : x.2.1 ∉ A.map (fun y => y.2.1) := by
    intro hm
    exact hknotin (List.mem_append.2 (Or.inl hm))
  have hB : x.2.1 ∉ B.map (fun y => y.2.1) := by
    intro hm
    exact hknotin (List.mem_append.2 (Or.inr hm))
  have huntouchedA : ∀ op ∈ A.map toAppendOp, ∀ t ∈ op.tags, t.1 ≠ x.2.1 := by
    intro op hop t ht he
    obtain ⟨y, hy, hyop⟩ := List.mem_map.1 hop
    subst hyop
    have ht1 : t.1 = y.2.1 := by
      rw [toAppendOp] at ht
      have := List.mem_singleton.1 ht
      rw [this]
    exact hA (List.mem_map.2 ⟨y, hy, by rw [← ht1, he]⟩)
  have huntouchedB : ∀ op ∈ B.map toAppendOp, ∀ t ∈ op.tags, t.1 ≠ x.2.1 := by
    intro op hop t ht he
    obtain ⟨y, hy, hyop⟩ := List.mem_map.1 hop
    subst hyop
    have ht1 : t.1 = y.2.1 := by
      rw [toAppendOp] at ht
      have := List.mem_singleton.1 ht
      rw [this]
    exact hB (List.mem_map.2 ⟨y, hy, by rw [← ht1, he]⟩)
  rw [List.map_append, List.map_cons]
  rw [applyOps, List.foldl_append, List.foldl_cons]
  rw [← applyOps, ← applyOps]
  have hfresh : keyVersions
      (applyOps p (entity0 id dataset ty created)
        (A.map toAppendOp)).timeline x.2.1 = [] := by
    rw [keyVersions_applyOps_untouched p _ _ _ huntouchedA]
    simp [entity0, keyVersions]
  have h2 := lastVersion_applyOp_fresh p
    (applyOps p (entity0 id dataset ty created) (A.map toAppendOp))
    x.2.1 x.2.2 x.1 hfresh
  have h3 := keyVersions_applyOps_untouched p
    (applyOp p (applyOps p (entity0 id dataset ty created)
      (A.map toAppendOp)) (toAppendOp x))
    (B.map toAppendOp) x.2.1 huntouchedB
  rw [latestVal, lastVersion, h3, ← lastVersion]
  have hop : toAppendOp x = ⟨[(x.2.1, x.2.2, Op.set)], x.1⟩ := rfl
  rw [hop]
  rw [h2]

/-- Witness for the concurrent-append theorem at a concrete run of 100
single-key appends. -/
theorem concurrent_appends_witness :
    c2list.length = 100 ∧ (c2list.map (fun x => x.2.1)).Nodup ∧
      latestVal (applyOps ⟨none, none⟩ (entity0 "e" "d" "t" 0)
          (c2list.map toAppendOp)) "k0" = some "v0" :=
  ⟨by decide, by decide,
    concurrent_appends_no_lost_updates ⟨none, none⟩ "e" "d" "t" 0 c2list
      c2list (by decide) (by decide) (List.Perm.refl c2list)
      (1, "k0", "v0") (by decide)⟩

/-- C3: `asOf(E, ts)` selects, for every key of the timeline, the temporally
last version with `timestampNanos ≤ ts` (the unique eligible version that all
other eligible versions precede in `(timestampNanos, sequence)` order),
excludes keys whose selected version is a `Delete`, and returns `NotFound`
when `ts` precedes the entity's creation. -/
theorem as_of_point_in_time_semantics
    (p : RetentionPolicy) (id dataset ty : String) (created : Nat)
    (ops : List AppendOp) (ts : Nat) (k : String) :
    (ts < created →
      asOf (applyOps p (entity0 id dataset ty created) ops) ts
        = Except.error ApiError.notFound) ∧
    (created ≤ ts →
      ∀ l, asOf (applyOps p (entity0 id dataset ty created) ops) ts
          = Except.ok l →
        ∀ val, ((k, val) ∈ l ↔
          ∃ v, asOfVersion
              (applyOps p (entity0 id dataset ty created) ops).timeline ts k
            = some v ∧ v.op = Op.set ∧ v.value = val)) ∧
    (∀ v, asOfVersion
          (applyOps p (entity0 id dataset ty created) ops).timeline ts k
        = some v ↔
      (v ∈ history (applyOps p (entity0 id dataset ty created) ops) k ∧
        v.timestampNanos ≤ ts ∧
        ∀ w ∈ history (applyOps p (entity0 id dataset ty created) ops) k,
          w.timestampNanos ≤ ts → w = v ∨ pairLtb w.pair v.pair = true)) := by
  have hcr : (applyOps p (entity0 id dataset ty created) ops).createdNanos
      = created := createdNanos_applyOps p _ ops
  have hsorted : SortedStreams
      (applyOps p (entity0 id dataset ty created) ops).timeline :=
    sortedStreams_applyOps p (fun k' => by simp [entity0, keyVersions]) ops
  have hel : (List.filter (fun v => decide (v.timestampNanos ≤ ts))
        (keyVersions
          (applyOps p (entity0 id dataset ty created) ops).timeline
          k)).Pairwise (fun a b => pairLtb a.pair b.pair = true) :=
    List.Pairwise.sublist (List.filter_sublist _) (hsorted k)
  refine ⟨?_, ?_, ?_⟩
  · intro h
    rw [asOf, if_pos (by rw [hcr]; exact h)]
  · intro h l hl val
    rw [asOf, if_neg (by rw [hcr]; omega)] at hl
    have hleq := (Except.ok.inj hl).symm
    subst hleq
    rw [mem_asOf_view]
    exact asOfVal_some_iff _ ts k val
  · intro v
    constructor
    · intro h
      obtain ⟨hmem, hts⟩ := asOfVersion_some _ ts k h
      refine ⟨hmem, hts, ?_⟩
      intro w hw hwts
      have hwel : w ∈ List.filter (fun x => decide (x.timestampNanos ≤ ts))
          (keyVersions
            (applyOps p (entity0 id dataset ty created) ops).timeline k) :=
        List.mem_filter.2 ⟨hw, by simpa using hwts⟩
      exact pairwise_getLast?_max hel h w hwel
    · intro ⟨hmem, hts, hmax⟩
      have hvel : v ∈ List.filter (fun x => decide (x.timestampNanos ≤ ts))
          (keyVersions
            (applyOps p (entity0 id dataset ty created) ops).timeline k) :=
        List.mem_filter.2 ⟨hmem, by simpa using hts⟩
      rw [asOfVersion]
      cases hm : (List.filter (fun x => decide (x.timestampNanos ≤ ts))
          (keyVersions
            (applyOps p (entity0 id dataset ty created) ops).timeline
            k)).getLast? with
      | none =>
          rw [List.getLast?_eq_none_iff] at hm
          rw [hm] at hvel
          cases hvel
      | some m =>
          have hmel := List.mem_of_mem_getLast? hm
          obtain ⟨hmk, hmts⟩ := List.mem_filter.1 hmel
          have h1 := hmax m hmk (by simpa using hmts)
          have h2 := pairwise_getLast?_max hel hm v hvel
          cases h1 with
          | inl he => rw [he]
          | inr hlt1 =>
              cases h2 with
              | inl he => rw [he]
              | inr hlt2 =>
                  have := pairLtb_asymm hlt1
                  rw [this] at hlt2
                  cases hlt2

/-- Witness for the as-of theorem: a two-append run probed before creation
and between the two writes. -/
theorem as_of_witness :
    asOf (applyOps ⟨some 2, none⟩ (entity0 "e" "d" "t" 2) c3ops) 1
        = Except.error ApiError.notFound ∧
      (("value", "10") ∈ [("value", "10")] ↔
        ∃ v, asOfVersion (applyOps ⟨some 2, none⟩ (entity0 "e" "d" "t" 2)
            c3ops).timeline 15 "value"
          = some v ∧ v.op = Op.set ∧ v.value = "10") :=
  ⟨(as_of_point_in_time_semantics ⟨some 2, none⟩ "e" "d" "t" 2 c3ops 1
      "value").1 (by decide),
    (as_of_point_in_time_semantics ⟨some 2, none⟩ "e" "d" "t" 2 c3ops 15
      "value").2.1 (by decide) [("value", "10")] rfl "10"⟩

/-- C4: for every entity and every timestamp at or after its last write,
`asOf` returns exactly the CurrentView `GetLatest` computes — each key mapped
to its most recent non-pruned `Set` version, absent when the most recent op is
a `Delete`. -/
theorem as_of_after_last_write_is_latest (e : Entity) (ts : Nat)
    (h : lastWriteTime e ≤ ts) : asOf e ts = Except.ok (getLatest e) := by
  have hcr : e.createdNanos ≤ lastWriteTime e := le_foldl_maxTs _ _
  rw [asOf, if_neg (by omega)]
  rw [getLatest]
  congr 1
  apply List.filterMap_congr
  intro k _
  have hasver : asOfVersion e.timeline ts k = lastVersion e.timeline k := by
    rw [asOfVersion, lastVersion]
    congr 1
    apply List.filter_eq_self.2
    intro v hv
    have hvtl : v ∈ e.timeline := (List.mem_filter.1 hv).1
    have : v.timestampNanos ≤ lastWriteTime e := mem_le_foldl_maxTs _ _ hvtl
    simp only [decide_eq_true_eq]
    omega
  rw [asOfVal, latestVal, hasver]

/-- Witness for the as-of-after-last-write theorem at a concrete entity. -/
theorem as_of_after_last_write_witness :
    lastWriteTime (Entity.mk "e" "d" "t" 3
        [⟨5, "a", "1", Op.set, 0⟩, ⟨6, "b", "2", Op.del, 1⟩] 2) ≤ 7 ∧
      asOf (Entity.mk "e" "d" "t" 3
          [⟨5, "a", "1", Op.set, 0⟩, ⟨6, "b", "2", Op.del, 1⟩] 2) 7
        = Except.ok (getLatest (Entity.mk "e" "d" "t" 3
            [⟨5, "a", "1", Op.set, 0⟩, ⟨6, "b", "2", Op.del, 1⟩] 2)) :=
  ⟨by decide,
    as_of_after_last_write_is_latest
      (Entity.mk "e" "d" "t" 3
        [⟨5, "a", "1", Op.set, 0⟩, ⟨6, "b", "2", Op.del, 1⟩] 2) 7
      (by decide)⟩

/-- C5: `diff(E, t1, t2)` is exactly the set of keys whose `asOf(t1)` value
differs from their `asOf(t2)` value — appearance and disappearance via
Set/Delete show up as a `some`/`none` difference — and `diff(E, t, t)` is
always empty. -/
theorem diff_is_changed_key_set (e : Entity) (t1 t2 : Nat) (k : String) :
    (k ∈ diffKeys e t1 t2 ↔
      asOfVal e.timeline t1 k ≠ asOfVal e.timeline t2 k) ∧
    ∀ t, diffKeys e t t = [] := by
  constructor
  · rw [diffKeys, List.mem_filter]
    constructor
    · intro ⟨_, hp⟩
      simpa using hp
    · intro hne
      refine ⟨?_, by simpa using hne⟩
      by_contra hk
      have hnil := keyVersions_eq_nil_of_not_mem e.timeline k hk
      have h1 : asOfVal e.timeline t1 k = none := by
        rw [asOfVal, asOfVersion, hnil]
        rfl
      have h2 : asOfVal e.timeline t2 k = none := by
        rw [asOfVal, asOfVersion, hnil]
        rfl
      exact hne (h1.trans h2.symm)
  · intro t
    rw [diffKeys]
    apply List.filter_eq_nil_iff.2
    intro a _
    simp

/-- C6: `changesSince(ts, limit)` returns a sequence non-decreasing in
`timestampNanos`; restarting from the returned continuation token produces
the remainder of the feed with no duplicates and no gaps (one page plus its
continuation reassemble the full eligible stream); and pruning versions older
than `ts` never changes any page of the feed. -/
theorem changes_since_ordered_and_restartable
    (idx : List Change) (ts limit : Nat)
    (hs : idx.Pairwise (fun a b => pairLtb a.pair b.pair = true)) :
    (∀ token, (changesSince idx ts limit token).Pairwise
      (fun a b => a.timestampNanos ≤ b.timestampNanos)) ∧
    (changesSince idx ts limit none
        ++ afterToken (nextToken (changesSince idx ts limit none))
            (eligibleSince idx ts)
      = eligibleSince idx ts) ∧
    (∀ q : Change → Bool,
      (∀ c ∈ idx, q c = false → c.timestampNanos < ts) →
      ∀ (limit2 : Nat) (token : Option (Nat × Nat)),
        changesSince (idx.filter q) ts limit2 token
          = changesSince idx ts limit2 token) := by
  have hel : (eligibleSince idx ts).Pairwise
      (fun a b => pairLtb a.pair b.pair = true) :=
    List.Pairwise.filter _ hs
  refine ⟨?_, ?_, ?_⟩
  · intro token
    have hsub : (changesSince idx ts limit token).Sublist
        (eligibleSince idx ts) :=
      (List.take_sublist _ _).trans (afterToken_sublist token _)
    refine List.Pairwise.imp ?_ (List.Pairwise.sublist hsub hel)
    intro a b hab
    rw [pairLtb_iff] at hab
    simp only [Change.pair] at hab
    omega
  · rw [changesSince, afterToken]
    rw [afterToken_take _ limit hel]
    exact List.take_append_drop limit (eligibleSince idx ts)
  · intro q hq limit2 token
    have helq : eligibleSince (idx.filter q) ts = eligibleSince idx ts := by
      rw [eligibleSince, eligibleSince, List.filter_filter]
      apply List.filter_congr
      intro c hc
      cases hqc : q c with
      | false =>
          have := hq c hc hqc
          simp [Nat.not_le_of_lt this]
      | true => simp
    rw [changesSince, changesSince, helq]

/-- Witness for the change feed theorem at a concrete three-record index. -/
theorem changes_since_witness :
    ([⟨"a", "x", "1", 5, 0⟩, ⟨"b", "y", "2", 7, 1⟩,
        ⟨"a", "x", "3", 9, 2⟩] : List Change).Pairwise
        (fun a b => pairLtb a.pair b.pair = true) ∧
      changesSince [⟨"a", "x", "1", 5, 0⟩, ⟨"b", "y", "2", 7, 1⟩,
          ⟨"a", "x", "3", 9, 2⟩] 6 1 none
          ++ afterToken (nextToken (changesSince [⟨"a", "x", "1", 5, 0⟩,
              ⟨"b", "y", "2", 7, 1⟩, ⟨"a", "x", "3", 9, 2⟩] 6 1 none))
            (eligibleSince [⟨"a", "x", "1", 5, 0⟩, ⟨"b", "y", "2", 7, 1⟩,
              ⟨"a", "x", "3", 9, 2⟩] 6)
        = eligibleSince [⟨"a", "x", "1", 5, 0⟩, ⟨"b", "y", "2", 7, 1⟩,
            ⟨"a", "x", "3", 9, 2⟩] 6 :=
  ⟨by decide,
    (changes_since_ordered_and_restartable
      [⟨"a", "x", "1", 5, 0⟩, ⟨"b", "y", "2", 7, 1⟩, ⟨"a", "x", "3", 9, 2⟩]
      6 1 (by decide)).2.1⟩

/-- C7: `append` fails with `InvalidTimestamp` exactly when some supplied
tag's `(timestampNanos, sequence)` is not strictly greater than that key's
last recorded pair; consequently, within one entity-key stream the
`(timestampNanos, sequence)` pairs of recorded versions are strictly
increasing. -/
theorem invalid_timestamp_iff_and_streams_strictly_increase
    (p : RetentionPolicy) :
    (∀ (e : Entity) (tags : List (String × String × Op)) (ts : Nat),
        appendTags p e tags ts = Except.error ApiError.invalidTimestamp ↔
          ∃ v ∈ mkVersions ts e.nextSeq tags,
            okForKey e.timeline v.key v.timestampNanos v.sequence = false) ∧
    (∀ (id dataset ty : String) (created : Nat) (ops : List AppendOp)
        (k : String),
        (keyVersions (applyOps p (entity0 id dataset ty created) ops).timeline
            k).Pairwise (fun a b => pairLtb a.pair b.pair = true)) := by
  constructor
  · intro e tags ts
    rw [appendTags]
    by_cases hb : batchOk e.timeline ts e.nextSeq tags = true
    · rw [if_pos hb]
      simp only [batchOk, List.all_eq_true] at hb
      constructor
      · intro h
        cases h
      · intro ⟨v, hv, hfalse⟩
        rw [hb v hv] at hfalse
        cases hfalse
    · rw [if_neg hb]
      simp only [batchOk, List.all_eq_true] at hb
      push_neg at hb
      constructor
      · intro _
        obtain ⟨v, hv, hne⟩ := hb
        exact ⟨v, hv, by simpa using hne⟩
      · intro _
        rfl
  · intro id dataset ty created ops k
    exact sortedStreams_applyOps p
      (fun k' => by simp [entity0, keyVersions]) ops k

/-- C8: a wire tag is either `key:value` (untimed) or
`timestampNanos|key:value`, and parsing a tag produced by the encoder
recovers the original `(timestamp, key, value)` triple; the key may not
contain the `:` separator (nor, for untimed tags, the `|` prefix separator),
the value is unconstrained. -/
theorem wire_tag_encoding_roundtrip :
    (∀ (ts : Nat) (k v : List Char), Char.ofNat 58 ∉ k →
      parseTag (encodeTimed ts k v) = some (some ts, k, v)) ∧
    (∀ (k v : List Char), Char.ofNat 58 ∉ k → Char.ofNat 124 ∉ k →
      parseTag (encodeUntimed k v) = some (none, k, v)) := by
  constructor
  · intro ts k v hk
    rw [parseTag, encodeTimed, stripTime_timed]
    simp only
    rw [splitAtFirst_append_not_mem _ _ _ hk, splitAtFirst_cons_self]
    simp
  · intro k v hk hbar
    rw [parseTag, encodeUntimed, stripTime_untimed k v hbar]
    simp only
    rw [splitAtFirst_append_not_mem _ _ _ hk, splitAtFirst_cons_self]
    simp

/-- Witness for the wire codec theorem at concrete tags `1234|ab:cd` and
`ab:c|d`. -/
theorem wire_tag_encoding_witness :
    (Char.ofNat 58 ∉ [Char.ofNat 97, Char.ofNat 98] ∧
      parseTag (encodeTimed 1234 [Char.ofNat 97, Char.ofNat 98]
          [Char.ofNat 99, Char.ofNat 100])
        = some (some 1234, [Char.ofNat 97, Char.ofNat 98],
            [Char.ofNat 99, Char.ofNat 100])) ∧
    (Char.ofNat 124 ∉ [Char.ofNat 97, Char.ofNat 98] ∧
      parseTag (encodeUntimed [Char.ofNat 97, Char.ofNat 98]
          [Char.ofNat 99, Char.ofNat 124, Char.ofNat 100])
        = some (none, [Char.ofNat 97, Char.ofNat 98],
            [Char.ofNat 99, Char.ofNat 124, Char.ofNat 100])) :=
  ⟨⟨by decide,
      wire_tag_encoding_roundtrip.1 1234 [Char.ofNat 97, Char.ofNat 98]
        [Char.ofNat 99, Char.ofNat 100] (by decide)⟩,
    ⟨by decide,
      wire_tag_encoding_roundtrip.2 [Char.ofNat 97, Char.ofNat 98]
        [Char.ofNat 99, Char.ofNat 124, Char.ofNat 100] (by decide)
        (by decide)⟩⟩

/-- C9 counterexample: `_request` does not always return a dict — a response
body that is valid JSON but not an object (for example `[]`, as the history
endpoint returns) is passed through unchanged. -/
theorem request_not_always_dict :
    (requestResult (some (PyJson.arr []))).isObj = false := rfl

/-- C9 (amended): `_request` returns the decoded JSON value of the response
body unchanged when decoding succeeds (a dict whenever the body is a JSON
object), and exactly
`{"status": "error", "message": "Invalid JSON response"}` when decoding
fails — a JSON decoding exception is never propagated. -/
theorem request_json_error_handling :
    (∀ j, requestResult (some j) = j) ∧
      requestResult none
        = PyJson.obj [("status", PyJson.str "error"),
            ("message", PyJson.str "Invalid JSON response")] :=
  ⟨fun _ => rfl, rfl⟩

/-- C10: the tag `add_metric_value` appends is exactly `"value:" ++ value`;
the `metric_name` and `timestamp` arguments have no effect on the written tag
list, so every metric recorded on one entity shares the single key
`value`. -/
theorem add_metric_value_tag_shape :
    (∀ (c : List String) (m v : String) (t : Option String),
      addMetricValueTags c m v t = c ++ [String.append "value:" v]) ∧
    (∀ (c : List String) (m m' v : String) (t t' : Option String),
      addMetricValueTags c m v t = addMetricValueTags c m' v t') :=
  ⟨fun _ _ _ _ => rfl, fun _ _ _ _ _ _ => rfl⟩

end EntityDB
